import Mathlib

/-!
Verification of the video-slicer job engine (src/app.py, src/slice.py).

Strings from the Python code are modelled as `List Char`.  Python floats are
modelled as exact rationals (`ℚ`), machine division as rational division, and
the float literal `1e-6` as `1/1000000`.  Fallible Python code is modelled
with `Option`/`Except`, where `none`/`Except.error` marks a raised exception.
External collaborators (ffprobe / ffmpeg / the filesystem) are modelled as
explicit inputs: the text a probe printed, the lines the splitter streamed,
its exit code, its stderr text, and the directory listing.
-/

/-- Python `str.isspace` characters relevant to `str.strip()` (ASCII subset;
the code never meets non-ASCII whitespace). -/
def pyIsSpace (c : Char) : Bool :=
  [(' '), ('\t'), ('\n'), ('\r'), ('\x0b'), ('\x0c')].contains c

/-- Python `str.strip()`: drop whitespace from both ends. -/
def pyStrip (l : List Char) : List Char :=
  ((l.dropWhile pyIsSpace).reverse.dropWhile pyIsSpace).reverse

/-- Tail of a digit run for Python `int()`: digits with single underscores
allowed between digits (PEP 515). -/
def digitTail : List Char → Bool
  | [] => true
  | c :: rest =>
    if c = ('_') then
      match rest with
      | [] => false
      | c2 :: rest2 => c2.isDigit && digitTail rest2
    else c.isDigit && digitTail rest

/-- A valid unsigned digit run for Python `int()`: nonempty, starts with a
digit, underscores only between digits. -/
def digitRun : List Char → Bool
  | [] => false
  | c :: rest => c.isDigit && digitTail rest

/-- Accumulate the decimal value of a digit run, skipping underscores. -/
def digitsToNatAux : Nat → List Char → Nat
  | acc, [] => acc
  | acc, c :: rest =>
    if c = ('_') then digitsToNatAux acc rest
    else digitsToNatAux (acc * 10 + (c.toNat - 48)) rest

/-- The decimal digit character for a value below ten. -/
def digitChar (d : Nat) : Char :=
  ("0123456789").data.getD d ('0')

/-- Decimal rendering of a natural number, as Python `str` produces it. -/
def natToChars (n : Nat) : List Char :=
  if n < 10 then [digitChar n]
  else natToChars (n / 10) ++ [digitChar (n % 10)]
termination_by n
decreasing_by exact Nat.div_lt_self (by omega) (by omega)

/-- Decimal rendering of an integer, as Python `str` produces it. -/
def intChars (v : Int) : List Char :=
  if v < 0 then ('-') :: natToChars v.natAbs else natToChars v.natAbs

/-- Parse an already-stripped decimal literal: one optional sign followed by
a digit run. -/
def pyIntStripped : List Char → Option Int
  | [] => none
  | c :: rest =>
    if c = ('+') then
      if digitRun rest then some ((digitsToNatAux 0 rest : Nat) : Int) else none
    else if c = ('-') then
      if digitRun rest then some (-((digitsToNatAux 0 rest : Nat) : Int)) else none
    else
      if digitRun (c :: rest) then some ((digitsToNatAux 0 (c :: rest) : Nat) : Int)
      else none

/-- Python `int(s)` for a decimal string: strips whitespace, allows one
leading sign, then a digit run; returns `none` when `int` would raise
`ValueError`. -/
def pyInt (l : List Char) : Option Int :=
  pyIntStripped (pyStrip l)

/-- The text of the `ValueError` raised by Python `int()` on a bad literal. -/
def intErrText (v : List Char) : List Char :=
  ("invalid literal for int() with base 10: \x27").data ++ v ++ ("\x27").data

/-- All characters of a list are non-whitespace. -/
def noSpace (l : List Char) : Bool :=
  l.all (fun c => !(pyIsSpace c))

/-- All characters of a list are decimal digits. -/
def allDigits (l : List Char) : Bool :=
  l.all Char.isDigit

/-- posixpath `basename`: everything after the last slash. -/
def pyBasename (l : List Char) : List Char :=
  (l.reverse.takeWhile (fun c => c ≠ ('/'))).reverse

/-- Split a slash-free name at its last dot: `some (before, after)` when a
dot exists, `none` otherwise. -/
def splitAtLastDot (b : List Char) : Option (List Char × List Char) :=
  let r := b.reverse
  let after := r.takeWhile (fun c => c ≠ ('.'))
  match r.dropWhile (fun c => c ≠ ('.')) with
  | [] => none
  | _ :: pre => some (pre.reverse, after.reverse)

/-- `os.path.splitext` restricted to a basename: the extension starts at the
last dot, provided some earlier character of the name is not a dot (leading
dots never start an extension). -/
def pySplitextBase (b : List Char) : List Char × List Char :=
  match splitAtLastDot b with
  | none => (b, [])
  | some (pre, suf) =>
    if pre.any (fun c => c ≠ ('.')) then (pre, ('.') :: suf) else (b, [])

/-- `os.path.splitext` on a full path: the directory part is kept on the
stem, the extension comes from the basename. -/
def pySplitext (p : List Char) : List Char × List Char :=
  let b := pyBasename p
  let s := pySplitextBase b
  (p.take (p.length - b.length) ++ s.1, s.2)

/-- posixpath `join` for two components, as `os.path.join` computes it. -/
def osJoin (a b : List Char) : List Char :=
  if b.head? = some ('/') then b
  else if a = [] ∨ a.getLast? = some ('/') then a ++ b
  else a ++ ('/') :: b

/-- Boolean lexicographic order on character lists, matching how Python
compares the strings returned by `os.listdir` under `sorted`. -/
def lexLeB : List Char → List Char → Bool
  | [], _ => true
  | _ :: _, [] => false
  | a :: as, b :: bs => if a < b then true else if a = b then lexLeB as bs else false

/-- Propositional form of `lexLeB`, used as the sorting relation. -/
def lexLe (a b : List Char) : Prop := lexLeB a b = true

instance : DecidableRel lexLe := fun a b => by
  unfold lexLe; infer_instance

instance : IsTotal (List Char) lexLe where
  total := by
    intro a
    induction a with
    | nil => intro b; left; rfl
    | cons x as ih =>
      intro b
      cases b with
      | nil => right; rfl
      | cons y bs =>
        rcases lt_trichotomy x y with h | h | h
        · left
          simp [lexLe, lexLeB, h]
        · subst h
          rcases ih bs with h2 | h2
          · left
            simp [lexLe, lexLeB, lt_irrefl]
            exact h2
          · right
            simp [lexLe, lexLeB, lt_irrefl]
            exact h2
        · right
          simp [lexLe, lexLeB, h]

instance : IsTrans (List Char) lexLe where
  trans := by
    intro a
    induction a with
    | nil => intro b c _ _; rfl
    | cons x as ih =>
      intro b c hab hbc
      cases b with
      | nil => simp [lexLe, lexLeB] at hab
      | cons y bs =>
        cases c with
        | nil => simp [lexLe, lexLeB] at hbc
        | cons z cs =>
          simp only [lexLe, lexLeB] at hab hbc ⊢
          by_cases hxy : x < y
          · by_cases hyz : y < z
            · simp [lt_trans hxy hyz]
            · by_cases hyz2 : y = z
              · subst hyz2
                simp [hxy]
              · rw [if_neg hyz, if_neg hyz2] at hbc
                exact absurd hbc (by simp)
          · by_cases hxy2 : x = y
            · subst hxy2
              rw [if_neg hxy, if_pos rfl] at hab
              by_cases hxz : x < z
              · simp [hxz]
              · by_cases hxz2 : x = z
                · subst hxz2
                  rw [if_neg hxz, if_pos rfl] at hbc
                  rw [if_neg hxz, if_pos rfl]
                  exact ih bs cs hab hbc
                · rw [if_neg hxz, if_neg hxz2] at hbc
                  exact absurd hbc (by simp)
            · rw [if_neg hxy, if_neg hxy2] at hab
              exact absurd hab (by simp)

/-! ## Data model: job records and their states (src/app.py) -/

/-- The four values the `status` field of a job record takes. -/
inductive JStatus where
  | queued
  | running
  | done
  | error
deriving DecidableEq, Repr

/-- One job record from the `JOBS` registry: the mutable fields the worker
writes.  The two wall-clock timestamps are abstracted: `finished` records
only whether the `finished` timestamp has been set. -/
structure Job where
  status : JStatus
  pct : ℚ
  msg : List Char
  parts : List (List Char)
  out_pattern : List Char
  finished : Bool
deriving DecidableEq, Repr

/-- The record `start` installs in `JOBS` before spawning the worker
(src/app.py lines 147-156). -/
def initJob (patt : Option (List Char)) : Job :=
  { status := JStatus.queued, pct := 0, msg := [], parts := [],
    out_pattern := patt.getD [], finished := false }

/-! ## Worker helpers (src/app.py run_job) -/

/-- The extension run_job derives from the input path:
`os.path.splitext(input_path)[1] or ".mp4"` (line 68). -/
def extOf (inputPath : List Char) : List Char :=
  let e := (pySplitext inputPath).2
  if e = [] then (".mp4").data else e

/-- The output pattern run_job uses: the submitted pattern if any, else
`os.path.join(OUTPUT_DIR, f"{base}_part%03d{ext}")` (lines 67-69). -/
def outPatternOf (outDir inputPath : List Char) (patt : Option (List Char)) : List Char :=
  match patt with
  | some p => p
  | none =>
    osJoin outDir ((pySplitextBase (pyBasename inputPath)).1 ++ ("_part%03d").data
      ++ extOf inputPath)

/-- Decimal rendering of a rational rounded to two places, modelling the
Python format `f"{x:.2f}"` (rounding direction simplified to half-up; no
claim depends on this text). -/
def fmt2 (q : ℚ) : List Char :=
  let m : Int := Int.floor (q * 100 + 1 / 2)
  intChars (m / 100) ++ ('.') ::
    (if m % 100 < 10 then ('0') :: intChars (m % 100) else intChars (m % 100))

/-- The intermediate status message written before launching the splitter:
`f"~{math.ceil(dur/seg_time)} parts @ {seg_time:.2f}s/part"` (line 73). -/
def estMsg (dur segTime : ℚ) : List Char :=
  ('~') :: intChars (Int.ceil (dur / segTime)) ++ (" parts @ ").data
    ++ fmt2 segTime ++ ("s/part").data

/-- Effect of one streamed progress line on the `pct` field (src/app.py
lines 89-98): the line is stripped; a line without `=` is skipped; the line
is split at the first `=`; key `out_time_ms` sets
`pct := min(1.0, int(v)/1e6 / max(dur, 1e-6))`, where a bad integer literal
raises (`Except.error` carries the `ValueError` text); `progress=end` sets
`pct := 1.0`; other keys are skipped.  `Except.ok none` means no write,
`Except.ok (some p)` means `pct := p`. -/
def pctAfterLine (dur : ℚ) (rawLine : List Char) : Except (List Char) (Option ℚ) :=
  let line := pyStrip rawLine
  if line.contains ('=') then
    let k := line.takeWhile (fun c => c ≠ ('='))
    let v := (line.dropWhile (fun c => c ≠ ('='))).tail
    if k = ("out_time_ms").data then
      match pyInt v with
      | none => Except.error (intErrText v)
      | some n => Except.ok (some (min 1 (((n : ℚ) / 1000000) / (max dur (1 / 1000000)))))
    else if k = ("progress").data ∧ v = ("end").data then Except.ok (some 1)
    else Except.ok none
  else Except.ok none

/-- Run the progress-line loop over the streamed lines.  Returns the list of
job snapshots produced by each `pct` write, the job value after the loop,
and `some e` when a line raised (aborting the loop), as the Python `for`
inside `try` does. -/
def procLines (dur : ℚ) : Job → List (List Char) → List Job × Job × Option (List Char)
  | j, [] => ([], j, none)
  | j, l :: rest =>
    match pctAfterLine dur l with
    | Except.error e => ([], j, some e)
    | Except.ok none => procLines dur j rest
    | Except.ok (some p) =>
      let j2 := { j with pct := p }
      let r := procLines dur j2 rest
      (j2 :: r.1, r.2.1, r.2.2)

/-- Success-path file enumeration (src/app.py lines 107-110): names in the
output directory listing that start with the pattern text before the first
`%` and end with the extension derived from the input path, sorted. -/
def computeParts (outPat ext : List Char) (listing : List (List Char)) : List (List Char) :=
  let pre := (pyBasename outPat).takeWhile (fun c => c ≠ ('%'))
  List.insertionSort lexLe
    (listing.filter (fun f => pre.isPrefixOf f && ext.isSuffixOf f))

/-- The environment a single run_job call observes: the metadata probes
(`ffprobe_duration` and `estimate_seg_time_secs` results, or the exception
text when one raised), the splitter process (its streamed stdout lines, exit
code and stderr text, or the exception text when `Popen` raised), and the
output-directory listing consulted on success. -/
structure RWorld where
  probe : Except (List Char) (ℚ × ℚ)
  launch : Except (List Char) (List (List Char) × Int × List Char)
  listing : List (List Char)

/-- The record after the write `j["status"] = "running"` (line 72). -/
def runHeader1 (j0 : Job) : Job :=
  { j0 with status := JStatus.running }

/-- The record after the write of the estimate message (line 73). -/
def runHeader2 (j0 : Job) (dur segTime : ℚ) : Job :=
  { runHeader1 j0 with msg := estMsg dur segTime }

/-- The record after the write `j["out_pattern"] = out_pattern` (line 74). -/
def runHeader3 (j0 : Job) (dur segTime : ℚ) (outPat : List Char) : Job :=
  { runHeader2 j0 dur segTime with out_pattern := outPat }

/-- The phase of `run_job` from the `Popen` call on (lines 87-116), given
the job value `j3` holding after the header writes: the loop snapshots,
then the terminal writes of the launch-failure, loop-exception, non-zero
exit or success branch. -/
def runJobLaunch (dur : ℚ) (outPat ext : List Char) (listing : List (List Char))
    (launch : Except (List Char) (List (List Char) × Int × List Char)) (j3 : Job) :
    List Job :=
  match launch with
  | Except.error e =>
    let j4 := { j3 with status := JStatus.error }
    let j5 := { j4 with msg := e }
    let j6 := { j5 with finished := true }
    [j4, j5, j6]
  | Except.ok (lines, ret, errTxt) =>
    let pr := procLines dur j3 lines
    pr.1 ++
      (match pr.2.2 with
       | some e =>
         let j4 := { pr.2.1 with status := JStatus.error }
         let j5 := { j4 with msg := e }
         let j6 := { j5 with finished := true }
         [j4, j5, j6]
       | none =>
         if ret ≠ 0 then
           let j4 := { pr.2.1 with status := JStatus.error }
           let j5 := { j4 with msg :=
             if errTxt = [] then ("ffmpeg exited ").data ++ intChars ret else errTxt }
           let j6 := { j5 with finished := true }
           [j4, j5, j6]
         else
           let j4 := { pr.2.1 with status := JStatus.done }
           let j5 := { j4 with msg := ("Completed").data }
           let j6 := { j5 with parts := computeParts outPat ext listing }
           let j7 := { j6 with finished := true }
           [j4, j5, j6, j7])

/-- The full mutation trace of `run_job` (src/app.py lines 54-116) starting
from the registry record `j0`: every field assignment to the job record
appends one snapshot, so the list holds exactly the states a concurrent
reader can observe.  Branches follow the source: metadata failure (lines
59-65), the running header writes (lines 71-74), launch failure and any
exception in the loop (lines 113-116), non-zero exit (lines 100-102), and
the success path (lines 103-112). -/
def run_job (w : RWorld) (outDir inputPath : List Char) (patt : Option (List Char))
    (j0 : Job) : List Job :=
  match w.probe with
  | Except.error e =>
    let j1 := { j0 with status := JStatus.error }
    let j2 := { j1 with msg := ("Metadata error: ").data ++ e }
    let j3 := { j2 with pct := 0 }
    let j4 := { j3 with finished := true }
    [j0, j1, j2, j3, j4]
  | Except.ok (dur, segTime) =>
    let ext := extOf inputPath
    let outPat := outPatternOf outDir inputPath patt
    let j3 := runHeader3 j0 dur segTime outPat
    [j0, runHeader1 j0, runHeader2 j0 dur segTime, j3]
      ++ runJobLaunch dur outPat ext w.listing w.launch j3

/-! ## Prober and estimator (src/app.py lines 33-52, src/slice.py lines 12-40) -/

/-- The container-bitrate query result: `Except.error ()` models a
`CalledProcessError` from `subprocess.check_output`; `Except.ok s` carries
the text ffprobe printed (before stripping). -/
def ffprobe_bitrate_or_calc (brQuery : Except Unit (List Char)) (dur : ℚ)
    (size : Int) : Option ℚ :=
  match brQuery with
  | Except.error _ => some (((size : ℚ) * 8) / max dur (1 / 1000000))
  | Except.ok s =>
    match pyInt (pyStrip s) with
    | none => none
    | some br =>
      if 0 < br then some ((br : ℚ))
      else some (((size : ℚ) * 8) / max dur (1 / 1000000))

/-- src/app.py lines 49-52: `max(1.0, chunk_mb*1024*1024*8 / bitrate)`,
with the bitrate taken from `ffprobe_bitrate_or_calc`; `none` when the
prober raised. -/
def estimate_seg_time_secs (brQuery : Except Unit (List Char)) (dur : ℚ)
    (size : Int) (chunk_mb : Int) : Option ℚ :=
  (ffprobe_bitrate_or_calc brQuery dur size).map
    (fun bitrate => max 1 ((((chunk_mb : ℚ)) * 1024 * 1024 * 8) / bitrate))

/-- src/slice.py lines 20-40.  `brQuery` is the `format=bit_rate` probe
(`Except.error ()` for a `CalledProcessError`); `dur` and `size` stand for
the parsed `format=duration` and `format=size` probes of the fallback path.
`Except.error` carries the text of the escaping exception. -/
def compute_segment_time_secs (brQuery : Except Unit (List Char)) (dur : ℚ)
    (size : Int) (chunk_mb : Int) : Except (List Char) ℚ :=
  let brStep : Except (List Char) Int :=
    match brQuery with
    | Except.error _ => Except.ok 0
    | Except.ok s =>
      if pyStrip s = [] then Except.ok 0
      else
        match pyInt (pyStrip s) with
        | none => Except.error (intErrText (pyStrip s))
        | some n => Except.ok n
  match brStep with
  | Except.error e => Except.error e
  | Except.ok br =>
    if br ≤ 0 then
      if dur ≤ 0 then Except.error (("Could not determine duration.").data)
      else
        Except.ok (max 1 ((((chunk_mb : ℚ)) * 1024 * 1024 * 8)
          / (((size : ℚ) * 8) / dur)))
    else Except.ok (max 1 ((((chunk_mb : ℚ)) * 1024 * 1024 * 8) / ((br : ℚ))))

/-- The default output pattern of the CLI (src/slice.py lines 58-59):
`f"{base}_part%03d{ext or .mp4}"` from `os.path.splitext(input_file)`. -/
def cliOutPattern (inputFile : List Char) (patt : Option (List Char)) : List Char :=
  match patt with
  | some p => p
  | none =>
    (pySplitext inputFile).1 ++ ("_part%03d").data
      ++ (if (pySplitext inputFile).2 = [] then (".mp4").data else (pySplitext inputFile).2)

/-! ## Submission endpoint (src/app.py start, lines 127-159) -/

/-- Submitted form data: the raw `chunk_mb` field when present, whether a
file with a nonempty filename was uploaded, and the raw `pattern` field. -/
structure StartForm where
  chunkField : Option (List Char)
  hasFile : Bool
  patternField : List Char

/-- The `start` endpoint: validates `chunk_mb` (default `"0"`; `int` failure
or the failed `assert chunk_mb > 0` both reach `abort(400)`), requires an
uploaded file, then installs a fresh `queued` record keyed by a new id.
Returns the HTTP error or the new job id, paired with the registry after the
request. -/
def start (form : StartForm) (reg : List (Nat × Job)) (newId : Nat) :
    Except Nat Nat × List (Nat × Job) :=
  match pyInt (form.chunkField.getD (("0").data)) with
  | none => (Except.error 400, reg)
  | some n =>
    if n ≤ 0 then (Except.error 400, reg)
    else
      let patt := if pyStrip form.patternField = [] then none
        else some (pyStrip form.patternField)
      if form.hasFile then (Except.ok newId, (newId, initJob patt) :: reg)
      else (Except.error 400, reg)

/-! ## Progress publisher (src/app.py progress_stream, lines 168-187) -/

/-- One server-sent payload: status, pct, msg, and the parts list when the
status is terminal (lines 177-182). -/
structure Snapshot where
  status : JStatus
  pct : ℚ
  msg : List Char
  files : List (List Char)
deriving DecidableEq, Repr

/-- A status is terminal when it is `done` or `error`. -/
def isTerminal (s : JStatus) : Bool :=
  s = JStatus.done || s = JStatus.error

/-- The payload built for one poll of the job record. -/
def payloadOf (j : Job) : Snapshot :=
  { status := j.status, pct := j.pct, msg := j.msg,
    files := if isTerminal j.status then j.parts else [] }

/-- The generator of `progress_stream`: each list element is the result of
one `JOBS.get(job_id)` poll (the 0.15 s sleep separates consecutive polls).
A missing record stops the stream; otherwise the payload is emitted and the
loop ends exactly when the emitted status was terminal. -/
def progress_stream : List (Option Job) → List Snapshot
  | [] => []
  | none :: _ => []
  | some j :: rest =>
    payloadOf j :: (if isTerminal j.status then [] else progress_stream rest)

/-- A concrete running job used by witnesses. -/
def runningJobW : Job :=
  { initJob none with status := JStatus.running }

/-- A concrete finished job with one part, used by witnesses. -/
def doneJobW : Job :=
  { initJob none with status := JStatus.done, parts := [("a").data] }

/-- Modelled from the spec: the file enumeration as §4.3 words it, filtering
the directory listing by the output pattern literal prefix and the output
pattern own suffix (its extension), sorted.  Used only to compare the spec
wording of claim C6 against what the code computes. -/
def specPatternParts (outPat : List Char) (listing : List (List Char)) : List (List Char) :=
  let pre := (pyBasename outPat).takeWhile (fun c => c ≠ ('%'))
  let suf := (pySplitextBase (pyBasename outPat)).2
  List.insertionSort lexLe
    (listing.filter (fun f => pre.isPrefixOf f && suf.isSuffixOf f))

/-! ## Predicates used by the claim statements -/

/-- The sequence of values the loop assigns to `pct`, one per line that
writes (lines that raise or write nothing contribute nothing). -/
def pctUpdates (dur : ℚ) (lines : List (List Char)) : List ℚ :=
  lines.filterMap (fun l =>
    match pctAfterLine dur l with
    | Except.ok (some p) => some p
    | _ => none)

/-- A well-behaved splitter stream, as ffmpeg actually produces one: every
`pct` write is nonnegative, consecutive writes never decrease, and on a
successful exit the final write is the `1.0` of `progress=end`. -/
def goodStream (dur : ℚ) (lines : List (List Char)) (ret : Int) : Prop :=
  (∀ p ∈ pctUpdates dur lines, 0 ≤ p) ∧
  List.Chain' (· ≤ ·) (pctUpdates dur lines) ∧
  (ret = 0 → (pctUpdates dur lines).getLast? = some 1)

/-- A world whose splitter stream (when the launch succeeded and the probe
succeeded) is well behaved. -/
def goodWorld (w : RWorld) : Prop :=
  ∀ dur segTime lines ret errTxt,
    w.probe = Except.ok (dur, segTime) →
    w.launch = Except.ok (lines, ret, errTxt) →
    goodStream dur lines ret

/-- The status transitions the worker actually performs: stay put, start
(`queued → running`), fail during metadata probing (`queued → error`), or
finish (`running → done` and `running → error`). -/
def stepOk (a b : JStatus) : Prop :=
  a = b ∨ (a = JStatus.queued ∧ b = JStatus.running) ∨
    (a = JStatus.queued ∧ b = JStatus.error) ∨
    (a = JStatus.running ∧ (b = JStatus.done ∨ b = JStatus.error))

instance : DecidableRel stepOk := fun a b => by
  unfold stepOk; infer_instance

/-- Relation between consecutive snapshots: while the job is still running,
the progress value never decreases. -/
def pctStep (a b : Job) : Prop :=
  b.status = JStatus.running → a.pct ≤ b.pct

/-! ## Concrete environments used by counterexamples and witnesses -/

/-- World for C9: metadata fine, the stream holds a junk line, a malformed
out_time_ms line, then progress=end; exit code 0. -/
def c9World : RWorld :=
  ⟨Except.ok (10, 5),
    Except.ok ([("frame=1").data, ("out_time_ms=abc").data, ("progress=end").data],
      0, []),
    []⟩

/-- World for C2: metadata fine, the stream reports 2.0 s and then a
negative out_time_ms, then the process exits 0 without progress=end. -/
def c2World : RWorld :=
  ⟨Except.ok (10, 5),
    Except.ok ([("out_time_ms=2000000").data, ("out_time_ms=-1000000").data], 0, []),
    []⟩

/-- World for C3: the metadata probe raises. -/
def c3World : RWorld :=
  ⟨Except.error (("boom").data), Except.error [], []⟩

/-- World for C6: successful split, but the directory listing produced by
the explicit output pattern clip_part%03d.mp4 while the input is an .mkv
file. -/
def c6World : RWorld :=
  ⟨Except.ok (10, 5), Except.ok ([("progress=end").data], 0, []),
    [("clip_part000.mp4").data, ("clip_part001.mp4").data]⟩

/-- World for the C6 witness: successful split with the derived default
pattern; the listing holds two parts and an unrelated file. -/
def c6GoodWorld : RWorld :=
  ⟨Except.ok (10, 5), Except.ok ([("progress=end").data], 0, []),
    [("vid_part001.mp4").data, ("other.txt").data, ("vid_part000.mp4").data]⟩

/-! ## Helper lemmas: characters, stripping, integer rendering -/

lemma dropWhile_eq_self_of (p : Char → Bool) (l : List Char)
    (h : ∀ c ∈ l, p c = false) : l.dropWhile p = l := by
  cases l with
  | nil => rfl
  | cons a t =>
    rw [List.dropWhile_cons, h a (List.mem_cons_self a t)]
    simp

lemma pyStrip_eq_self {l : List Char} (h : noSpace l = true) : pyStrip l = l := by
  have h1 : ∀ c ∈ l, pyIsSpace c = false := by
    intro c hc
    have := List.all_eq_true.mp h c hc
    simpa using this
  unfold pyStrip
  rw [dropWhile_eq_self_of _ _ h1,
    dropWhile_eq_self_of _ _ (fun c hc => h1 c (List.mem_reverse.mp hc)),
    List.reverse_reverse]

lemma isDigit_ne_us {c : Char} (h : c.isDigit = true) : c ≠ ('_') := by
  intro hc; subst hc; exact absurd h (by decide)

lemma isDigit_ne_plus {c : Char} (h : c.isDigit = true) : c ≠ ('+') := by
  intro hc; subst hc; exact absurd h (by decide)

lemma isDigit_ne_minus {c : Char} (h : c.isDigit = true) : c ≠ ('-') := by
  intro hc; subst hc; exact absurd h (by decide)

lemma isDigit_ne_eq {c : Char} (h : c.isDigit = true) : c ≠ ('=') := by
  intro hc; subst hc; exact absurd h (by decide)

lemma isDigit_not_space {c : Char} (h : c.isDigit = true) : pyIsSpace c = false := by
  by_contra hb
  have h2 : pyIsSpace c = true := by
    cases hps : pyIsSpace c
    · exact absurd hps hb
    · rfl
  have h3 : c ∈ [(' '), ('\t'), ('\n'), ('\r'), ('\x0b'), ('\x0c')] := by
    simpa [pyIsSpace] using h2
  fin_cases h3 <;> exact absurd h (by decide)

lemma digitChar_isDigit {d : Nat} (h : d < 10) : (digitChar d).isDigit = true := by
  interval_cases d <;> decide

lemma digitChar_val {d : Nat} (h : d < 10) : (digitChar d).toNat - 48 = d := by
  interval_cases d <;> decide

lemma natToChars_digits : ∀ n, allDigits (natToChars n) = true := by
  intro n
  induction n using Nat.strong_induction_on with
  | _ n ih =>
    rw [natToChars]
    split
    · simp [allDigits]
      exact digitChar_isDigit (by omega)
    · rename_i hn
      have h1 := ih (n / 10) (Nat.div_lt_self (by omega) (by omega))
      simp only [allDigits, List.all_append, Bool.and_eq_true] at h1 ⊢
      refine ⟨h1, ?_⟩
      simp
      exact digitChar_isDigit (Nat.mod_lt n (by omega))

lemma natToChars_ne_nil (n : Nat) : natToChars n ≠ [] := by
  rw [natToChars]
  split
  · simp
  · simp

lemma digitTail_of_digits : ∀ l, allDigits l = true → digitTail l = true := by
  intro l
  induction l with
  | nil => intro _; rfl
  | cons c rest ih =>
    intro h
    simp only [allDigits, List.all_cons, Bool.and_eq_true] at h
    rw [digitTail.eq_def]
    simp only [if_neg (isDigit_ne_us h.1)]
    rw [h.1, ih h.2]
    rfl

lemma digitRun_of_digits {l : List Char} (hne : l ≠ []) (h : allDigits l = true) :
    digitRun l = true := by
  cases l with
  | nil => exact absurd rfl hne
  | cons c rest =>
    simp only [allDigits, List.all_cons, Bool.and_eq_true] at h
    rw [digitRun, h.1, digitTail_of_digits rest h.2]
    rfl

lemma dtn_append (acc : Nat) (xs ys : List Char) :
    digitsToNatAux acc (xs ++ ys) = digitsToNatAux (digitsToNatAux acc xs) ys := by
  induction xs generalizing acc with
  | nil => rfl
  | cons c rest ih =>
    rw [List.cons_append, digitsToNatAux, digitsToNatAux]
    split
    · exact ih acc
    · exact ih _

lemma dtn_natToChars : ∀ n, digitsToNatAux 0 (natToChars n) = n := by
  intro n
  induction n using Nat.strong_induction_on with
  | _ n ih =>
    rw [natToChars]
    split
    · rename_i hn
      rw [digitsToNatAux, if_neg (isDigit_ne_us (digitChar_isDigit hn)), digitsToNatAux]
      rw [digitChar_val hn]
      omega
    · rename_i hn
      rw [dtn_append, ih (n / 10) (Nat.div_lt_self (by omega) (by omega))]
      have h10 : n % 10 < 10 := Nat.mod_lt n (by omega)
      rw [digitsToNatAux, if_neg (isDigit_ne_us (digitChar_isDigit h10)), digitsToNatAux]
      rw [digitChar_val h10]
      omega

lemma noSpace_natToChars (n : Nat) : noSpace (natToChars n) = true := by
  have h := natToChars_digits n
  simp only [allDigits, List.all_eq_true] at h
  simp only [noSpace, List.all_eq_true]
  intro c hc
  simpa using isDigit_not_space (h c hc)

lemma noSpace_intChars (v : Int) : noSpace (intChars v) = true := by
  rw [intChars]
  split
  · have h := noSpace_natToChars v.natAbs
    simp only [noSpace, List.all_cons, Bool.and_eq_true]
    exact ⟨by decide, h⟩
  · exact noSpace_natToChars v.natAbs

lemma pyInt_natToChars (n : Nat) : pyInt (natToChars n) = some (n : Int) := by
  have hstrip : pyStrip (natToChars n) = natToChars n :=
    pyStrip_eq_self (noSpace_natToChars n)
  have hdig : allDigits (natToChars n) = true := natToChars_digits n
  obtain ⟨c, rest, hl⟩ : ∃ c rest, natToChars n = c :: rest := by
    cases hx : natToChars n with
    | nil => exact absurd hx (natToChars_ne_nil n)
    | cons c rest => exact ⟨c, rest, rfl⟩
  have hcd : c.isDigit = true := by
    rw [hl] at hdig
    simp only [allDigits, List.all_cons, Bool.and_eq_true] at hdig
    exact hdig.1
  rw [pyInt, hstrip, hl, pyIntStripped]
  rw [if_neg (isDigit_ne_plus hcd), if_neg (isDigit_ne_minus hcd)]
  rw [if_pos (by rw [← hl]; exact digitRun_of_digits (natToChars_ne_nil n) (natToChars_digits n))]
  rw [← hl, dtn_natToChars]

lemma pyInt_intChars (v : Int) : pyInt (intChars v) = some v := by
  by_cases hv : v < 0
  · have hstrip : pyStrip (intChars v) = intChars v :=
      pyStrip_eq_self (noSpace_intChars v)
    rw [pyInt, hstrip, intChars, if_pos hv, pyIntStripped]
    rw [if_neg (by decide : ¬ (('-') = ('+'))), if_pos rfl]
    rw [if_pos (digitRun_of_digits (natToChars_ne_nil _) (natToChars_digits _))]
    rw [dtn_natToChars]
    have hna : ((v.natAbs : Int)) = -v := by omega
    rw [hna]
    simp
  · rw [intChars, if_neg hv, pyInt_natToChars]
    have hna : ((v.natAbs : Int)) = v := by omega
    rw [hna]

lemma intChars_ne_nil (v : Int) : intChars v ≠ [] := by
  rw [intChars]
  split
  · simp
  · exact natToChars_ne_nil _

/-! ## Claim C1: segment-time estimator formula -/

/-- C1: for every positive integer chunk_mb and every declared bitrate b > 0
(delivered by the probe as its decimal text), the web estimator
(src/app.py `estimate_seg_time_secs`) and the CLI estimator
(src/slice.py `compute_segment_time_secs`) both return exactly
`max(1.0, chunk_mb * 1024 * 1024 * 8 / b)`, and whenever that quotient is
below 1.0 the result is clamped to 1.0. -/
theorem c1_estimator_formula (b chunk : Int) (dur : ℚ) (size : Int)
    (hb : 0 < b) (_hc : 0 < chunk) :
    estimate_seg_time_secs (Except.ok (intChars b)) dur size chunk
        = some (max 1 ((((chunk : ℚ)) * 1024 * 1024 * 8) / ((b : ℚ))))
    ∧ compute_segment_time_secs (Except.ok (intChars b)) dur size chunk
        = Except.ok (max 1 ((((chunk : ℚ)) * 1024 * 1024 * 8) / ((b : ℚ))))
    ∧ ((((chunk : ℚ)) * 1024 * 1024 * 8) / ((b : ℚ)) < 1 →
        max 1 ((((chunk : ℚ)) * 1024 * 1024 * 8) / ((b : ℚ))) = 1) := by
  have hstrip : pyStrip (intChars b) = intChars b := pyStrip_eq_self (noSpace_intChars b)
  have hpi : pyInt (pyStrip (intChars b)) = some b := by
    rw [hstrip, pyInt_intChars]
  refine ⟨?_, ?_, ?_⟩
  · simp only [estimate_seg_time_secs, ffprobe_bitrate_or_calc, hpi]
    rw [if_pos hb]
    simp [Option.map]
  · simp only [compute_segment_time_secs, hstrip]
    rw [if_neg (intChars_ne_nil b)]
    rw [pyInt_intChars]
    simp only []
    rw [if_neg (by omega : ¬ b ≤ 0)]
  · intro h
    exact max_eq_left (le_of_lt h)

/-- C1 witness: the two concrete checks of spec §8 — chunk 10 MB at
8 Mb/s gives 10.48576 s, and chunk 1 MB at 100 Mb/s clamps to 1.0 s. -/
theorem c1_estimator_formula_checks :
    estimate_seg_time_secs (Except.ok (intChars 8000000)) 120 0 10
        = some ((32768 : ℚ) / 3125)
    ∧ estimate_seg_time_secs (Except.ok (intChars 100000000)) 120 0 1 = some 1 := by
  constructor
  · have h := (c1_estimator_formula 8000000 10 120 0 (by norm_num) (by norm_num)).1
    rw [h]
    norm_num
  · have h := (c1_estimator_formula 100000000 1 120 0 (by norm_num) (by norm_num)).1
    have hcl := (c1_estimator_formula 100000000 1 120 0 (by norm_num) (by norm_num)).2.2
    rw [h, hcl (by norm_num)]

/-! ## Claim C7: invalid chunk_mb is rejected before any record exists -/

/-- C7: whenever the submitted `chunk_mb` field is non-numeric, missing
(defaulting to "0"), zero or negative, `start` answers HTTP 400 and the
registry after the request is identical to the registry before it; no job
id is returned. -/
theorem c7_invalid_chunk_rejected (form : StartForm) (reg : List (Nat × Job)) (newId : Nat)
    (h : ∀ n, pyInt (form.chunkField.getD (("0").data)) = some n → n ≤ 0) :
    (start form reg newId).1 = Except.error 400 ∧ (start form reg newId).2 = reg := by
  unfold start
  cases hpi : pyInt (form.chunkField.getD (("0").data)) with
  | none => exact ⟨rfl, rfl⟩
  | some n =>
    simp [if_pos (h n hpi)]

/-- C7 witness: zero, negative and non-numeric chunk fields are all
rejected with an unchanged empty registry. -/
theorem c7_invalid_chunk_rejected_checks :
    (start ⟨some (("0").data), true, []⟩ [] 7).1 = Except.error 400
    ∧ (start ⟨some (("0").data), true, []⟩ [] 7).2 = []
    ∧ (start ⟨some (("-3").data), true, []⟩ [] 7).1 = Except.error 400
    ∧ (start ⟨some (("abc").data), true, []⟩ [] 7).1 = Except.error 400 := by
  have h0 := c7_invalid_chunk_rejected ⟨some (("0").data), true, []⟩ [] 7 (by
    intro n hn
    dsimp only [Option.getD] at hn
    have hx : pyInt (("0").data) = some 0 := by decide
    rw [hx] at hn
    injection hn with hn2
    omega)
  have hm := c7_invalid_chunk_rejected ⟨some (("-3").data), true, []⟩ [] 7 (by
    intro n hn
    dsimp only [Option.getD] at hn
    have hx : pyInt (("-3").data) = some (-3) := by decide
    rw [hx] at hn
    injection hn with hn2
    omega)
  have ha := c7_invalid_chunk_rejected ⟨some (("abc").data), true, []⟩ [] 7 (by
    intro n hn
    dsimp only [Option.getD] at hn
    have hx : pyInt (("abc").data) = none := by decide
    rw [hx] at hn
    simp at hn)
  exact ⟨h0.1, h0.2, hm.1, ha.1⟩

/-! ## Claim C8: the streaming variant emits until the first terminal poll -/

/-- C8: over any poll sequence whose first terminal observation is `jt`, the
stream emits one payload per non-terminal poll, then the payload of `jt`,
and stops there; when `jt` is done, that final payload carries the full
parts list.  Each list element stands for one `JOBS.get` poll; the fixed
0.15 s sleep separates consecutive polls and is abstracted away. -/
theorem c8_stream_terminates (pre : List Job) (jt : Job) (rest : List (Option Job))
    (hpre : ∀ j ∈ pre, isTerminal j.status = false) (hjt : isTerminal jt.status = true) :
    progress_stream (pre.map some ++ some jt :: rest)
        = pre.map payloadOf ++ [payloadOf jt]
    ∧ (jt.status = JStatus.done → (payloadOf jt).files = jt.parts) := by
  constructor
  · induction pre with
    | nil => simp [progress_stream, hjt]
    | cons a t ih =>
      have ha := hpre a (List.mem_cons_self a t)
      simp only [List.map_cons, List.cons_append, progress_stream, ha,
        Bool.false_eq_true, if_false, List.append_eq]
      rw [ih (fun j hj => hpre j (List.mem_cons_of_mem a hj))]
  · intro hd
    simp [payloadOf, isTerminal, hd]

/-- C8 witness: a queued poll, a running poll, then a done poll with one
part; the stream emits exactly three payloads and the last carries the
part list. -/
theorem c8_stream_terminates_checks :
    progress_stream [some (initJob none), some runningJobW, some doneJobW,
        some (initJob none)]
      = [payloadOf (initJob none), payloadOf runningJobW, payloadOf doneJobW]
    ∧ (payloadOf doneJobW).files = [("a").data] := by
  have h := c8_stream_terminates [initJob none, runningJobW] doneJobW
    [some (initJob none)] (by decide) (by decide)
  exact ⟨h.1, h.2 rfl⟩

/-! ## Claim C5: prober fallback (corrected) -/

/-- C5 counterexample: when the bitrate query succeeds but reports an absent
bitrate (ffprobe prints `N/A`), the web prober raises (models the uncaught
`ValueError` from `int`), so the job errors; the claim instead promised the
fallback value `size*8/dur`, which here would be 800. -/
theorem c5_absent_bitrate_raises :
    ffprobe_bitrate_or_calc (Except.ok (("N/A").data)) 10 1000 = none
    ∧ (((1000 : ℚ) * 8) / max 10 (1 / 1000000) = 800) := by
  constructor
  · decide
  · rw [max_eq_left (by norm_num : (1 / 1000000 : ℚ) ≤ 10)]
    norm_num

/-- C5 as amended: the fallback `size*8/max(dur,1e-6)` is returned when the
bitrate query fails with a `CalledProcessError` or when it reports a
non-positive integer; a reported positive integer is returned unchanged;
but when the query output is not a valid integer literal (absent bitrate,
`N/A` or empty), the prober raises instead of falling back. -/
theorem c5_prober_fallback (q : Except Unit (List Char)) (dur : ℚ) (size : Int) :
    (q = Except.error () →
      ffprobe_bitrate_or_calc q dur size
        = some (((size : ℚ) * 8) / max dur (1 / 1000000)))
    ∧ (∀ s br, q = Except.ok s → pyInt (pyStrip s) = some br → br ≤ 0 →
      ffprobe_bitrate_or_calc q dur size
        = some (((size : ℚ) * 8) / max dur (1 / 1000000)))
    ∧ (∀ s br, q = Except.ok s → pyInt (pyStrip s) = some br → 0 < br →
      ffprobe_bitrate_or_calc q dur size = some ((br : ℚ)))
    ∧ (∀ s, q = Except.ok s → pyInt (pyStrip s) = none →
      ffprobe_bitrate_or_calc q dur size = none) := by
  refine ⟨?_, ?_, ?_, ?_⟩
  · intro hq
    subst hq
    rfl
  · intro s br hq hpi hbr
    subst hq
    simp only [ffprobe_bitrate_or_calc, hpi]
    rw [if_neg (by omega : ¬ 0 < br)]
  · intro s br hq hpi hbr
    subst hq
    simp only [ffprobe_bitrate_or_calc, hpi]
    rw [if_pos hbr]
  · intro s hq hpi
    subst hq
    simp only [ffprobe_bitrate_or_calc, hpi]

/-- C5 witness: the three live branches at concrete inputs — query failure
falls back to 800, a reported 0 falls back to 800, a reported 8000000 is
returned unchanged. -/
theorem c5_prober_fallback_checks :
    ffprobe_bitrate_or_calc (Except.error ()) 10 1000 = some 800
    ∧ ffprobe_bitrate_or_calc (Except.ok (("0").data)) 10 1000 = some 800
    ∧ ffprobe_bitrate_or_calc (Except.ok (("8000000").data)) 10 1000 = some 8000000 := by
  refine ⟨?_, ?_, ?_⟩
  · have h := (c5_prober_fallback (Except.error ()) 10 1000).1 rfl
    rw [h]
    norm_num
  · have h := (c5_prober_fallback (Except.ok (("0").data)) 10 1000).2.1
      (("0").data) 0 rfl (by decide) (by omega)
    rw [h]
    norm_num
  · have h := (c5_prober_fallback (Except.ok (("8000000").data)) 10 1000).2.2.1
      (("8000000").data) 8000000 rfl (by decide) (by omega)
    rw [h]
    norm_num

/-! ## Helper lemmas: splitting a key=value line -/

lemma takeWhile_append_stop (p : Char → Bool) (xs : List Char) (y : Char) (ys : List Char)
    (hx : ∀ c ∈ xs, p c = true) (hy : p y = false) :
    (xs ++ y :: ys).takeWhile p = xs ∧ (xs ++ y :: ys).dropWhile p = y :: ys := by
  induction xs with
  | nil => simp [List.takeWhile_cons, List.dropWhile_cons, hy]
  | cons x t ih =>
    have hxp := hx x (List.mem_cons_self x t)
    have ihh := ih (fun c hc => hx c (List.mem_cons_of_mem x hc))
    simp [List.takeWhile_cons, List.dropWhile_cons, hxp, ihh.1, ihh.2]

lemma mem_pyStrip {c : Char} {l : List Char} (h : c ∈ pyStrip l) : c ∈ l := by
  unfold pyStrip at h
  rw [List.mem_reverse] at h
  have h2 : c ∈ (l.dropWhile pyIsSpace).reverse :=
    List.Sublist.mem h (List.dropWhile_sublist _)
  rw [List.mem_reverse] at h2
  exact List.Sublist.mem h2 (List.dropWhile_sublist _)

lemma noSpace_append {a b : List Char} (ha : noSpace a = true) (hb : noSpace b = true) :
    noSpace (a ++ b) = true := by
  simp only [noSpace, List.all_append, Bool.and_eq_true]
  exact ⟨ha, hb⟩

/-- How the loop body treats a whitespace-free `key=value` line, for a
slash-free key without `=`: the three-way dispatch of lines 94-98. -/
lemma pctAfterLine_split (dur : ℚ) (key val : List Char)
    (hkey : ('=') ∉ key) (hkns : noSpace key = true) (hvns : noSpace val = true) :
    pctAfterLine dur (key ++ ('=') :: val) =
      (if key = ("out_time_ms").data then
        (match pyInt val with
         | none => Except.error (intErrText val)
         | some n =>
           Except.ok (some (min 1 (((n : ℚ) / 1000000) / (max dur (1 / 1000000))))))
      else if key = ("progress").data ∧ val = ("end").data then Except.ok (some 1)
      else Except.ok none) := by
  have hns : noSpace (key ++ ('=') :: val) = true := by
    refine noSpace_append hkns ?_
    simp only [noSpace, List.all_cons, Bool.and_eq_true]
    exact ⟨by decide, hvns⟩
  have hstrip := pyStrip_eq_self hns
  have hx : ∀ c ∈ key, (decide (c ≠ ('='))) = true := by
    intro c hc
    simp only [decide_eq_true_eq]
    intro hceq
    exact hkey (hceq ▸ hc)
  have hy : (decide (('=') ≠ ('='))) = false := by decide
  have hsplit := takeWhile_append_stop (fun c => decide (c ≠ ('='))) key ('=') val hx hy
  have hc : (key ++ ('=') :: val).contains ('=') = true := by simp
  simp only [pctAfterLine, hstrip, hc, if_true, hsplit.1, hsplit.2, List.tail_cons]

/-! ## Claim C4: progress-line parsing -/

lemma pctAfterLine_no_eq (dur : ℚ) (l : List Char) (h : ('=') ∉ l) :
    pctAfterLine dur l = Except.ok none := by
  have hnc : ¬ ((pyStrip l).contains ('=') = true) := by
    intro hcc
    exact h (mem_pyStrip (by simpa using hcc))
  simp only [pctAfterLine, if_neg hnc]

lemma pctAfterLine_out_val (dur : ℚ) (v : Int) (hdur : (1 : ℚ) / 1000000 ≤ dur) :
    pctAfterLine dur ((("out_time_ms=").data) ++ intChars v)
      = Except.ok (some (min 1 (((v : ℚ) / 1000000) / dur))) := by
  have heq : (("out_time_ms=").data) ++ intChars v
      = ("out_time_ms").data ++ ('=') :: intChars v := rfl
  rw [heq, pctAfterLine_split dur _ _ (by decide) (by decide) (noSpace_intChars v)]
  simp only [if_pos rfl, pyInt_intChars, if_true]
  rw [max_eq_left hdur]

lemma pctAfterLine_progress_end (dur : ℚ) :
    pctAfterLine dur (("progress=end").data) = Except.ok (some 1) := by
  have heq : (("progress=end").data) = ("progress").data ++ ('=') :: ("end").data := rfl
  rw [heq, pctAfterLine_split dur _ _ (by decide) (by decide) (by decide)]
  rw [if_neg (by decide), if_pos ⟨rfl, rfl⟩]

/-- C4: a streamed line without `=` leaves the job unchanged; a line
`out_time_ms=v` with integer `v` sets the fraction to
`min(1.0, (v/10^6)/dur)` (for any duration at or above the code epsilon
`1e-6`, where `max(dur, 1e-6) = dur`); and `progress=end` sets exactly 1.0. -/
theorem c4_line_parsing (dur : ℚ) (l : List Char) (v : Int)
    (hdur : (1 : ℚ) / 1000000 ≤ dur) :
    (('=') ∉ l → pctAfterLine dur l = Except.ok none)
    ∧ pctAfterLine dur ((("out_time_ms=").data) ++ intChars v)
        = Except.ok (some (min 1 (((v : ℚ) / 1000000) / dur)))
    ∧ pctAfterLine dur (("progress=end").data) = Except.ok (some 1) :=
  ⟨fun h => pctAfterLine_no_eq dur l h, pctAfterLine_out_val dur v hdur,
    pctAfterLine_progress_end dur⟩

/-- C4 witness: at duration 10 s, a line without `=` is skipped,
`out_time_ms=2000000` yields fraction 1/5, and `progress=end` yields 1. -/
theorem c4_line_parsing_checks :
    pctAfterLine 10 (("hello").data) = Except.ok none
    ∧ pctAfterLine 10 (("out_time_ms=2000000").data) = Except.ok (some (1 / 5))
    ∧ pctAfterLine 10 (("progress=end").data) = Except.ok (some 1) := by
  have h := c4_line_parsing 10 (("hello").data) 2000000 (by norm_num)
  have hi : intChars (2000000 : Int) = ("2000000").data := by
    rw [intChars]
    norm_num
    rw [natToChars, natToChars, natToChars, natToChars, natToChars, natToChars,
      natToChars]
    norm_num
    decide
  have hl : (("out_time_ms=").data) ++ intChars (2000000 : Int)
      = ("out_time_ms=2000000").data := by
    rw [hi]
    decide
  have h2 := h.2.1
  rw [hl] at h2
  refine ⟨h.1 (by decide), ?_, h.2.2⟩
  rw [h2]
  norm_num [min_def]

/-! ## Claim C9: a malformed out_time_ms value aborts the loop into error -/

lemma getLast?_append3 (l : List Job) (a b c : Job) :
    (l ++ [a, b, c]).getLast? = some c := by
  rw [show l ++ [a, b, c] = (l ++ [a, b]) ++ [c] by simp]
  exact List.getLast?_concat _

lemma getLast?_append4 (l : List Job) (a b c d : Job) :
    (l ++ [a, b, c, d]).getLast? = some d := by
  rw [show l ++ [a, b, c, d] = (l ++ [a, b, c]) ++ [d] by simp]
  exact List.getLast?_concat _

lemma procLines_append_error (dur : ℚ) (pre : List (List Char)) (bad : List Char)
    (rest : List (List Char)) (em : List Char)
    (hpre : ∀ l ∈ pre, ∀ e, pctAfterLine dur l ≠ Except.error e)
    (hbad : pctAfterLine dur bad = Except.error em) :
    ∀ j, (procLines dur j (pre ++ bad :: rest)).2.2 = some em := by
  induction pre with
  | nil =>
    intro j
    simp only [List.nil_append, procLines, hbad]
  | cons l t ih =>
    intro j
    cases hres : pctAfterLine dur l with
    | error e => exact absurd hres (hpre l (List.mem_cons_self l t) e)
    | ok o =>
      have iht := ih (fun x hx e => hpre x (List.mem_cons_of_mem l hx) e)
      cases o with
      | none =>
        simp only [List.cons_append, procLines, hres]
        exact iht j
      | some p =>
        simp only [List.cons_append, procLines, hres]
        exact iht _

/-- C9: when the splitter stream contains a line `out_time_ms=<v>` whose
value is not a valid integer literal (and every earlier line parses without
raising), the `int` conversion raises, the worker's `except` handler
catches it, and the final job state is `error` with the `ValueError` text
as its message and the finished stamp set — the malformed line is not
skipped and the job does not stay `running`. -/
theorem c9_bad_out_time_errors (w : RWorld) (outDir inputPath : List Char)
    (patt : Option (List Char)) (j0 : Job) (dur segTime : ℚ)
    (pre rest : List (List Char)) (val : List Char) (ret : Int) (errTxt : List Char)
    (hprobe : w.probe = Except.ok (dur, segTime))
    (hlaunch : w.launch
      = Except.ok (pre ++ ((("out_time_ms=").data) ++ val) :: rest, ret, errTxt))
    (hpre : ∀ l ∈ pre, ∀ e, pctAfterLine dur l ≠ Except.error e)
    (hvns : noSpace val = true) (hpi : pyInt val = none) :
    ∃ jf, (run_job w outDir inputPath patt j0).getLast? = some jf
      ∧ jf.status = JStatus.error ∧ jf.msg = intErrText val ∧ jf.finished = true := by
  have hbadline : pctAfterLine dur ((("out_time_ms=").data) ++ val)
      = Except.error (intErrText val) := by
    rw [show (("out_time_ms=").data) ++ val = ("out_time_ms").data ++ ('=') :: val
      from rfl]
    rw [pctAfterLine_split dur _ _ (by decide) (by decide) hvns]
    simp only [if_pos rfl, hpi, if_true]
  have herr := procLines_append_error dur pre _ rest (intErrText val) hpre hbadline
  simp only [run_job, runJobLaunch, hprobe, hlaunch, herr]
  rw [← List.append_assoc]
  exact ⟨_, getLast?_append3 _ _ _ _, rfl, rfl, rfl⟩

/-- C9 witness: with stream `frame=1`, `out_time_ms=abc`, `progress=end`
and exit code 0, the final job state is `error` carrying the `ValueError`
text for `abc`. -/
theorem c9_bad_out_time_errors_checks :
    ((run_job c9World ("/o").data ("/up/v.mp4").data none (initJob none)).getLast?).map
        Job.status = some JStatus.error
    ∧ ((run_job c9World ("/o").data ("/up/v.mp4").data none (initJob none)).getLast?).map
        Job.msg = some (intErrText (("abc").data)) := by
  have hframe : ∀ l ∈ [(("frame=1").data)], ∀ e,
      pctAfterLine 10 l ≠ Except.error e := by
    intro l hl e
    have hl2 : l = ("frame=1").data := by simpa using hl
    subst hl2
    rw [show (("frame=1").data) = ("frame").data ++ ('=') :: ("1").data from rfl]
    rw [pctAfterLine_split 10 _ _ (by decide) (by decide) (by decide)]
    rw [if_neg (by decide), if_neg (by decide)]
    simp
  obtain ⟨jf, hlast, hst, hmsg, _hfin⟩ := c9_bad_out_time_errors c9World
    ("/o").data ("/up/v.mp4").data none (initJob none) 10 5
    [(("frame=1").data)] [(("progress=end").data)] (("abc").data) 0 []
    rfl rfl hframe (by decide) (by decide)
  rw [hlast]
  exact ⟨by simp [hst], by simp [hmsg]⟩

/-! ## Claim C3: the status state machine (corrected) -/

lemma procLines_status (dur : ℚ) :
    ∀ (lines : List (List Char)) (j : Job),
      (∀ x ∈ (procLines dur j lines).1, x.status = j.status)
      ∧ (procLines dur j lines).2.1.status = j.status := by
  intro lines
  induction lines with
  | nil => intro j; exact ⟨by simp [procLines], rfl⟩
  | cons l rest ih =>
    intro j
    cases hres : pctAfterLine dur l with
    | error e =>
      simp only [procLines, hres]
      simp
    | ok o =>
      cases o with
      | none =>
        simp only [procLines, hres]
        exact ih j
      | some p =>
        simp only [procLines, hres]
        obtain ⟨ih1, ih2⟩ := ih { j with pct := p }
        refine ⟨?_, ih2⟩
        intro x hx
        rcases List.mem_cons.mp hx with rfl | hx2
        · rfl
        · exact ih1 x hx2

lemma chain'_run_aux (T : List JStatus)
    (hT : T = [JStatus.done, JStatus.done, JStatus.done, JStatus.done]
      ∨ T = [JStatus.error, JStatus.error, JStatus.error]) :
    ∀ M, (∀ s ∈ M, s = JStatus.running) →
      List.Chain' stepOk (JStatus.running :: (M ++ T)) := by
  intro M
  induction M with
  | nil =>
    intro _
    rcases hT with rfl | rfl <;> simp [List.chain'_cons, stepOk]
  | cons s M2 ih =>
    intro hM
    have hs := hM s (List.mem_cons_self s M2)
    subst hs
    rw [List.cons_append, List.chain'_cons]
    exact ⟨Or.inl rfl, ih (fun x hx => hM x (List.mem_cons_of_mem _ hx))⟩

/-- The statuses written after the launch: some prefix of `running`
snapshots (the pct writes), then either the four `done` writes or the three
`error` writes. -/
lemma runJobLaunch_statuses (dur : ℚ) (outPat ext : List Char)
    (listing : List (List Char))
    (launch : Except (List Char) (List (List Char) × Int × List Char)) (j3 : Job)
    (h3 : j3.status = JStatus.running) :
    ∃ M T, (runJobLaunch dur outPat ext listing launch j3).map Job.status = M ++ T
      ∧ (∀ s ∈ M, s = JStatus.running)
      ∧ (T = [JStatus.done, JStatus.done, JStatus.done, JStatus.done]
        ∨ T = [JStatus.error, JStatus.error, JStatus.error]) := by
  cases launch with
  | error e =>
    exact ⟨[], [JStatus.error, JStatus.error, JStatus.error], rfl, by simp,
      Or.inr rfl⟩
  | ok lrow =>
    obtain ⟨lines, ret, errTxt⟩ := lrow
    obtain ⟨hsnap, _hfin⟩ := procLines_status dur lines j3
    have hM : ∀ s ∈ (procLines dur j3 lines).1.map Job.status, s = JStatus.running := by
      intro s hs
      obtain ⟨x, hx, rfl⟩ := List.mem_map.mp hs
      rw [hsnap x hx, h3]
    cases habort : (procLines dur j3 lines).2.2 with
    | some e =>
      refine ⟨(procLines dur j3 lines).1.map Job.status,
        [JStatus.error, JStatus.error, JStatus.error], ?_, hM, Or.inr rfl⟩
      simp only [runJobLaunch, habort, List.map_append]
      rfl
    | none =>
      by_cases hret : ret = 0
      · refine ⟨(procLines dur j3 lines).1.map Job.status,
          [JStatus.done, JStatus.done, JStatus.done, JStatus.done], ?_, hM, Or.inl rfl⟩
        simp only [runJobLaunch, habort, List.map_append, hret]
        rfl
      · refine ⟨(procLines dur j3 lines).1.map Job.status,
          [JStatus.error, JStatus.error, JStatus.error], ?_, hM, Or.inr rfl⟩
        simp only [runJobLaunch, habort, List.map_append, if_pos hret]
        rfl

/-- C3 as amended: starting from a `queued` record, consecutive statuses in
the worker trace only ever step along `queued → running → {done | error}`
or directly `queued → error` (metadata failure), and the terminal statuses
`done` and `error` are never left (`stepOk` admits no step out of them). -/
theorem c3_state_machine (w : RWorld) (outDir inputPath : List Char)
    (patt : Option (List Char)) (j0 : Job) (hq : j0.status = JStatus.queued) :
    List.Chain' stepOk ((run_job w outDir inputPath patt j0).map Job.status) := by
  obtain ⟨probe, launch, listing⟩ := w
  cases probe with
  | error e =>
    show List.Chain' stepOk [j0.status, JStatus.error, JStatus.error, JStatus.error,
      JStatus.error]
    rw [hq]
    simp [List.chain'_cons, stepOk]
  | ok ds =>
    obtain ⟨dur, segTime⟩ := ds
    simp only [run_job, List.map_append]
    obtain ⟨M, T, hmap, hM, hT⟩ := runJobLaunch_statuses dur
      (outPatternOf outDir inputPath patt) (extOf inputPath) listing launch
      (runHeader3 j0 dur segTime (outPatternOf outDir inputPath patt)) rfl
    rw [hmap]
    show List.Chain' stepOk ([j0.status, JStatus.running, JStatus.running,
      JStatus.running] ++ (M ++ T))
    rw [hq]
    show List.Chain' stepOk (JStatus.queued :: JStatus.running :: JStatus.running ::
      (JStatus.running :: (M ++ T)))
    refine List.chain'_cons.mpr ⟨Or.inr (Or.inl ⟨rfl, rfl⟩), ?_⟩
    refine List.chain'_cons.mpr ⟨Or.inl rfl, ?_⟩
    refine List.chain'_cons.mpr ⟨Or.inl rfl, ?_⟩
    exact chain'_run_aux T hT M hM

/-- C3 counterexample: when the metadata probe raises, the status goes
directly `queued → error` without ever passing through `running`, so the
claim that every transition into a terminal state occurs from `running` is
false on this trace. -/
theorem c3_counterexample :
    (run_job c3World ("/o").data ("/up/v.mp4").data none (initJob none)).map
        Job.status
      = [JStatus.queued, JStatus.error, JStatus.error, JStatus.error, JStatus.error]
    ∧ JStatus.running ∉ (run_job c3World ("/o").data ("/up/v.mp4").data none
        (initJob none)).map Job.status := by
  constructor
  · decide
  · decide

/-- C3 witness: the state-machine chain holds on a concrete successful
run. -/
theorem c3_state_machine_checks :
    List.Chain' stepOk ((run_job c9World ("/o").data ("/up/v.mp4").data none
      (initJob none)).map Job.status) :=
  c3_state_machine c9World (("/o").data) (("/up/v.mp4").data) none (initJob none) rfl

/-! ## Claim C6: output_parts on success (corrected) -/

lemma procLines_noabort (dur : ℚ) :
    ∀ (lines : List (List Char)) (j : Job),
      (∀ l ∈ lines, ∀ e, pctAfterLine dur l ≠ Except.error e) →
      (procLines dur j lines).2.2 = none := by
  intro lines
  induction lines with
  | nil => intro j _; rfl
  | cons l rest ih =>
    intro j hok
    cases hres : pctAfterLine dur l with
    | error e => exact absurd hres (hok l (List.mem_cons_self l rest) e)
    | ok o =>
      have iht := fun j2 => ih j2 (fun x hx e => hok x (List.mem_cons_of_mem l hx) e)
      cases o with
      | none =>
        simp only [procLines, hres]
        exact iht j
      | some p =>
        simp only [procLines, hres]
        exact iht _

/-- C6 as amended: when the splitter exits 0 (and no progress line raised),
the job finishes `done` and its parts become exactly the names of the
output-directory listing that start with the pattern text before the first
`%` and end with the extension derived from the INPUT path (`.mp4` when the
input has none) — not the pattern suffix — sorted lexicographically.  The
list is therefore empty whenever no listed name carries the input
extension, even for a successful job with an explicit pattern of a
different extension. -/
theorem c6_success_parts (w : RWorld) (outDir inputPath : List Char)
    (patt : Option (List Char)) (j0 : Job) (dur segTime : ℚ)
    (lines : List (List Char)) (errTxt : List Char)
    (hprobe : w.probe = Except.ok (dur, segTime))
    (hlaunch : w.launch = Except.ok (lines, 0, errTxt))
    (hok : ∀ l ∈ lines, ∀ e, pctAfterLine dur l ≠ Except.error e) :
    ∃ jf, (run_job w outDir inputPath patt j0).getLast? = some jf
      ∧ jf.status = JStatus.done
      ∧ jf.parts = computeParts (outPatternOf outDir inputPath patt)
          (extOf inputPath) w.listing
      ∧ List.Sorted lexLe jf.parts
      ∧ (∀ f, f ∈ jf.parts ↔ f ∈ w.listing
          ∧ ((pyBasename (outPatternOf outDir inputPath patt)).takeWhile
              (fun c => c ≠ ('%'))).isPrefixOf f = true
          ∧ (extOf inputPath).isSuffixOf f = true) := by
  have hno := procLines_noabort dur lines
    (runHeader3 j0 dur segTime (outPatternOf outDir inputPath patt)) hok
  simp only [run_job, runJobLaunch, hno,
    if_neg (show ¬ ((0 : Int) ≠ 0) from by omega), hprobe, hlaunch]
  rw [← List.append_assoc]
  refine ⟨_, getLast?_append4 _ _ _ _ _, rfl, rfl, ?_, ?_⟩
  · show List.Sorted lexLe (computeParts _ _ _)
    simp only [computeParts]
    exact List.sorted_insertionSort lexLe _
  · intro f
    show f ∈ computeParts _ _ _ ↔ _
    simp only [computeParts, List.mem_insertionSort, List.mem_filter,
      Bool.and_eq_true]

/-- C6 counterexample: input `/up/video.mkv` with explicit pattern
`/out/clip_part%03d.mp4`; the splitter succeeds and the directory holds
`clip_part000.mp4` and `clip_part001.mp4`.  The claim promises exactly the
names matching the PATTERN prefix and suffix (both files, as
`specPatternParts` computes from the spec wording) and a non-empty list;
the code filters by the INPUT extension `.mkv` and produces the empty
list on this successful job. -/
theorem c6_counterexample :
    ((run_job c6World ("/outputs").data ("/up/video.mkv").data
        (some (("/out/clip_part%03d.mp4").data))
        (initJob (some (("/out/clip_part%03d.mp4").data)))).getLast?).map
        (fun j => (j.status, j.parts))
      = some (JStatus.done, [])
    ∧ specPatternParts (("/out/clip_part%03d.mp4").data) c6World.listing
      = [("clip_part000.mp4").data, ("clip_part001.mp4").data] := by
  constructor
  · decide
  · decide

/-- C6 witness: with the derived default pattern for `/up/vid.mp4` the
parts of the finished job are exactly the two matching names of the
listing, in sorted order, the unrelated name excluded. -/
theorem c6_success_parts_checks :
    ((run_job c6GoodWorld ("/outputs").data ("/up/vid.mp4").data none
        (initJob none)).getLast?).map (fun j => (j.status, j.parts))
      = some (JStatus.done,
        [("vid_part000.mp4").data, ("vid_part001.mp4").data]) := by
  have hok : ∀ l ∈ [(("progress=end").data)], ∀ e,
      pctAfterLine 10 l ≠ Except.error e := by
    intro l hl e
    have hl2 : l = ("progress=end").data := by simpa using hl
    subst hl2
    rw [pctAfterLine_progress_end 10]
    simp
  obtain ⟨jf, hlast, hst, hparts, _hsort, _hmem⟩ := c6_success_parts c6GoodWorld
    ("/outputs").data ("/up/vid.mp4").data none (initJob none) 10 5
    [(("progress=end").data)] [] rfl rfl hok
  rw [hlast]
  rw [show Option.map (fun j => (j.status, j.parts)) (some jf)
    = some (jf.status, jf.parts) from rfl, hst, hparts]
  decide

/-! ## Claim C2: progress bounds and monotonicity (corrected) -/

lemma pctAfterLine_le_one {dur : ℚ} {l : List Char} {p : ℚ}
    (h : pctAfterLine dur l = Except.ok (some p)) : p ≤ 1 := by
  simp only [pctAfterLine] at h
  split at h
  · split at h
    · split at h
      · exact absurd h (by simp)
      · simp only [Except.ok.injEq, Option.some.injEq] at h
        rw [← h]
        exact min_le_left _ _
    · split at h
      · simp only [Except.ok.injEq, Option.some.injEq] at h
        rw [← h]
      · exact absurd h (by simp)
  · exact absurd h (by simp)

lemma pctUpdates_cons_out {dur : ℚ} {l : List Char} {p : ℚ} (rest : List (List Char))
    (hres : pctAfterLine dur l = Except.ok (some p)) :
    pctUpdates dur (l :: rest) = p :: pctUpdates dur rest := by
  simp only [pctUpdates, List.filterMap_cons, hres]

lemma pctUpdates_cons_skip {dur : ℚ} {l : List Char} (rest : List (List Char))
    (hres : pctAfterLine dur l = Except.ok none) :
    pctUpdates dur (l :: rest) = pctUpdates dur rest := by
  simp only [pctUpdates, List.filterMap_cons, hres]

lemma pctUpdates_cons_err {dur : ℚ} {l : List Char} {e : List Char}
    (rest : List (List Char)) (hres : pctAfterLine dur l = Except.error e) :
    pctUpdates dur (l :: rest) = pctUpdates dur rest := by
  simp only [pctUpdates, List.filterMap_cons, hres]

lemma procLines_final (dur : ℚ) :
    ∀ (lines : List (List Char)) (j : Job),
      (j :: (procLines dur j lines).1).getLast? = some (procLines dur j lines).2.1 := by
  intro lines
  induction lines with
  | nil => intro j; rfl
  | cons l rest ih =>
    intro j
    cases hres : pctAfterLine dur l with
    | error e => simp only [procLines, hres]; rfl
    | ok o =>
      cases o with
      | none =>
        simp only [procLines, hres]
        exact ih j
      | some p =>
        simp only [procLines, hres]
        rw [List.getLast?_cons_cons]
        exact ih { j with pct := p }

/-- The loop invariant: over a stream whose pct writes are nonnegative and
non-decreasing, every snapshot pct stays in [0,1], the snapshot pcts form a
non-decreasing chain from the starting job, and (when no line raised) the
final pct equals the last write, or the starting pct if nothing wrote. -/
lemma procLines_good (dur : ℚ) :
    ∀ (lines : List (List Char)) (j : Job),
      (∀ p ∈ pctUpdates dur lines, 0 ≤ p) →
      List.Chain' (· ≤ ·) (pctUpdates dur lines) →
      0 ≤ j.pct → j.pct ≤ 1 →
      (∀ p, (pctUpdates dur lines).head? = some p → j.pct ≤ p) →
      (∀ x ∈ (procLines dur j lines).1, 0 ≤ x.pct ∧ x.pct ≤ 1)
      ∧ List.Chain' (fun a b => a.pct ≤ b.pct) (j :: (procLines dur j lines).1)
      ∧ 0 ≤ (procLines dur j lines).2.1.pct ∧ (procLines dur j lines).2.1.pct ≤ 1
      ∧ ((procLines dur j lines).2.2 = none →
          (procLines dur j lines).2.1.pct
            = ((pctUpdates dur lines).getLast?).getD j.pct) := by
  intro lines
  induction lines with
  | nil =>
    intro j _ _ hj0 hj1 _
    exact ⟨by simp [procLines], by simp [procLines], hj0, hj1, fun _ => rfl⟩
  | cons l rest ih =>
    intro j hA hC hj0 hj1 hhead
    cases hres : pctAfterLine dur l with
    | error e =>
      simp only [procLines, hres]
      refine ⟨by simp, by simp, hj0, hj1, ?_⟩
      intro hcon
      exact absurd hcon (by simp)
    | ok o =>
      cases o with
      | none =>
        rw [pctUpdates_cons_skip rest hres] at hA hC hhead
        simp only [procLines, hres]
        rw [pctUpdates_cons_skip rest hres]
        exact ih j hA hC hj0 hj1 hhead
      | some p =>
        rw [pctUpdates_cons_out rest hres] at hA hC hhead
        have hp0 : 0 ≤ p := hA p (List.mem_cons_self p _)
        have hp1 : p ≤ 1 := pctAfterLine_le_one hres
        have hjp : j.pct ≤ p := hhead p rfl
        have hA2 : ∀ q ∈ pctUpdates dur rest, 0 ≤ q :=
          fun q hq => hA q (List.mem_cons_of_mem p hq)
        have hC2 : List.Chain' (· ≤ ·) (pctUpdates dur rest) := hC.tail
        have hhead2 : ∀ q, (pctUpdates dur rest).head? = some q → p ≤ q := by
          intro q hq
          have := (List.chain'_cons'.mp hC).1
          exact this q hq
        obtain ⟨ihA, ihB, ihC0, ihC1, ihD⟩ :=
          ih { j with pct := p } hA2 hC2 hp0 hp1 hhead2
        simp only [procLines, hres]
        rw [pctUpdates_cons_out rest hres]
        refine ⟨?_, ?_, ihC0, ihC1, ?_⟩
        · intro x hx
          rcases List.mem_cons.mp hx with rfl | hx2
          · exact ⟨hp0, hp1⟩
          · exact ihA x hx2
        · exact List.chain'_cons.mpr ⟨hjp, ihB⟩
        · intro hnone
          rw [ihD hnone]
          cases hru : pctUpdates dur rest with
          | nil => simp [hru]
          | cons q t =>
            rw [List.getLast?_cons_cons]
            have hne : (q :: t).getLast?.isSome := by
              simp [List.getLast?_isSome]
            obtain ⟨z, hz⟩ := Option.isSome_iff_exists.mp hne
            rw [hz]
            rfl

lemma chain'_pct_const (c : ℚ) : ∀ (t : List Job), (∀ x ∈ t, x.pct = c) →
    List.Chain' (fun a b => a.pct ≤ b.pct) t := by
  intro t
  induction t with
  | nil => intro _; simp
  | cons a t2 ih =>
    intro h
    rw [List.chain'_cons']
    refine ⟨?_, ih (fun x hx => h x (List.mem_cons_of_mem a hx))⟩
    intro y hy
    rw [h a (List.mem_cons_self a t2),
      h y (List.mem_cons_of_mem a (List.mem_of_mem_head? hy))]

/-- C2 as amended: over any well-behaved splitter stream (nonnegative,
non-decreasing pct writes, ending with the `1.0` write of `progress=end`
when the exit code is 0 — which is how ffmpeg behaves), every snapshot of
the trace keeps `pct` within [0,1], consecutive snapshots never decrease
`pct` while the job is running, and every `done` snapshot has `pct`
exactly 1. -/
theorem c2_progress_monotone (w : RWorld) (outDir inputPath : List Char)
    (patt : Option (List Char)) (j0 : Job)
    (hq : j0.status = JStatus.queued) (hp0 : j0.pct = 0)
    (hgood : goodWorld w) :
    (∀ j ∈ run_job w outDir inputPath patt j0, 0 ≤ j.pct ∧ j.pct ≤ 1)
    ∧ List.Chain' pctStep (run_job w outDir inputPath patt j0)
    ∧ (∀ j ∈ run_job w outDir inputPath patt j0,
        j.status = JStatus.done → j.pct = 1) := by
  obtain ⟨probe, launch, listing⟩ := w
  cases probe with
  | error e =>
    simp only [run_job]
    refine ⟨?_, ?_, ?_⟩
    · intro j hj
      fin_cases hj <;> simp [hp0]
    · simp [List.chain'_cons, pctStep, hp0]
    · intro j hj hdone
      fin_cases hj <;> simp_all
  | ok ds =>
    obtain ⟨dur, segTime⟩ := ds
    cases launch with
    | error e =>
      simp only [run_job, runJobLaunch]
      refine ⟨?_, ?_, ?_⟩
      · intro j hj
        fin_cases hj <;> simp [hp0, runHeader1, runHeader2, runHeader3]
      · simp [List.chain'_cons, pctStep, hp0, runHeader1, runHeader2, runHeader3]
      · intro j hj hdone
        fin_cases hj <;> simp_all [runHeader1, runHeader2, runHeader3]
    | ok lrow =>
      obtain ⟨lines, ret, errTxt⟩ := lrow
      obtain ⟨hA, hC, hE⟩ :
          goodStream dur lines ret := hgood dur segTime lines ret errTxt rfl rfl
      simp only [run_job, runJobLaunch]
      set J3 := runHeader3 j0 dur segTime (outPatternOf outDir inputPath patt)
        with hJ3
      have hJ3pct : J3.pct = 0 := by rw [hJ3]; exact hp0
      have hJ3st : J3.status = JStatus.running := by rw [hJ3]; rfl
      obtain ⟨hB1, hB2, hB3, hB4, hB5⟩ := procLines_good dur lines J3 hA hC
        (by simp [hJ3pct]) (by simp [hJ3pct]) (by
          intro p hp
          rw [hJ3pct]
          exact hA p (List.mem_of_mem_head? hp))
      obtain ⟨hS1, _hS2⟩ := procLines_status dur lines J3
      have hfinal := procLines_final dur lines J3
      have main : ∀ (tail : List Job),
          (∀ x ∈ tail, x.pct = (procLines dur J3 lines).2.1.pct) →
          (∀ x ∈ tail, x.status = JStatus.done →
            (procLines dur J3 lines).2.1.pct = 1) →
          ((∀ j ∈ [j0, runHeader1 j0, runHeader2 j0 dur segTime, J3]
              ++ ((procLines dur J3 lines).1 ++ tail), 0 ≤ j.pct ∧ j.pct ≤ 1)
          ∧ List.Chain' pctStep ([j0, runHeader1 j0, runHeader2 j0 dur segTime, J3]
              ++ ((procLines dur J3 lines).1 ++ tail))
          ∧ (∀ j ∈ [j0, runHeader1 j0, runHeader2 j0 dur segTime, J3]
              ++ ((procLines dur J3 lines).1 ++ tail),
              j.status = JStatus.done → j.pct = 1)) := by
        intro tail htp1 htp3
        have hmono : List.Chain' (fun a b => a.pct ≤ b.pct)
            ([j0, runHeader1 j0, runHeader2 j0 dur segTime, J3]
              ++ ((procLines dur J3 lines).1 ++ tail)) := by
          rw [List.chain'_append]
          refine ⟨?_, ?_, ?_⟩
          · simp [List.chain'_cons, runHeader1, runHeader2, hJ3pct, hp0]
          · rw [List.chain'_append]
            refine ⟨hB2.tail, chain'_pct_const _ tail htp1, ?_⟩
            intro x hx y hy
            rw [htp1 y (List.mem_of_mem_head? hy)]
            cases hP1 : (procLines dur J3 lines).1 with
            | nil =>
              rw [hP1] at hx
              exact absurd hx (by simp)
            | cons z zs =>
              rw [hP1] at hx
              rw [hP1, List.getLast?_cons_cons] at hfinal
              have hxeq : x = (procLines dur J3 lines).2.1 := by
                rw [hfinal] at hx
                exact (by simpa using hx : (procLines dur J3 lines).2.1 = x).symm
              rw [hxeq]
          · intro x hx y hy
            have hxJ : x = J3 := by
              exact (by simpa using hx : J3 = x).symm
            rw [hxJ, hJ3pct]
            cases hP1 : (procLines dur J3 lines).1 with
            | nil =>
              rw [hP1] at hy
              simp only [List.nil_append] at hy
              rw [htp1 y (List.mem_of_mem_head? hy)]
              exact hB3
            | cons z zs =>
              rw [hP1] at hy
              simp only [List.cons_append, List.head?_cons, Option.mem_def,
                Option.some.injEq] at hy
              subst hy
              have hz : z ∈ (procLines dur J3 lines).1 := by
                rw [hP1]
                exact List.mem_cons_self z zs
              exact (hB1 z hz).1
        refine ⟨?_, ?_, ?_⟩
        · intro j hj
          rcases List.mem_append.mp hj with h4 | h56
          · fin_cases h4 <;>
              simp [hp0, runHeader1, runHeader2, hJ3pct]
          · rcases List.mem_append.mp h56 with hp1m | htm
            · exact hB1 j hp1m
            · rw [htp1 j htm]
              exact ⟨hB3, hB4⟩
        · exact List.Chain'.imp (fun a b h => fun _ => h) hmono
        · intro j hj hdone
          rcases List.mem_append.mp hj with h4 | h56
          · simp only [List.mem_cons, List.not_mem_nil, or_false] at h4
            rcases h4 with rfl | rfl | rfl | rfl
            · rw [hq] at hdone
              exact absurd hdone (by simp)
            · exact absurd hdone (by simp [runHeader1])
            · exact absurd hdone (by simp [runHeader2, runHeader1])
            · rw [hJ3st] at hdone
              exact absurd hdone (by simp)
          · rcases List.mem_append.mp h56 with hp1m | htm
            · have hsx := hS1 j hp1m
              rw [hdone, hJ3st] at hsx
              exact absurd hsx (by simp)
            · rw [htp1 j htm]
              exact htp3 j htm hdone
      cases habort : (procLines dur J3 lines).2.2 with
      | some e =>
        simp only [habort]
        refine main _ ?_ ?_
        · intro x hx
          fin_cases hx <;> rfl
        · intro x hx hd
          exfalso
          fin_cases hx <;> simp at hd
      | none =>
        simp only [habort]
        by_cases hret : ret = 0
        · subst hret
          rw [if_neg (by omega : ¬ ((0 : Int) ≠ 0))]
          have hpin : (procLines dur J3 lines).2.1.pct = 1 := by
            rw [hB5 habort, hE rfl]
            simp
          refine main _ ?_ ?_
          · intro x hx
            fin_cases hx <;> rfl
          · intro x hx _
            exact hpin
        · rw [if_pos hret]
          refine main _ ?_ ?_
          · intro x hx
            fin_cases hx <;> rfl
          · intro x hx hd
            exfalso
            fin_cases hx <;> simp at hd

/-- C2 counterexample: duration 10 s, stream `out_time_ms=2000000` then
`out_time_ms=-1000000`, exit 0.  While running the fraction moves from 1/5
down to -1/10 (a decrease, and out of [0,1]), and the job then finishes
`done` with fraction -1/10 rather than exactly 1.0. -/
theorem c2_counterexample :
    ((run_job c2World ("/o").data ("/up/v.mp4").data none (initJob none)).map
        (fun j => (j.status, j.pct))).get? 4
      = some (JStatus.running, (1 : ℚ) / 5)
    ∧ ((run_job c2World ("/o").data ("/up/v.mp4").data none (initJob none)).map
        (fun j => (j.status, j.pct))).get? 5
      = some (JStatus.running, -((1 : ℚ) / 10))
    ∧ ((run_job c2World ("/o").data ("/up/v.mp4").data none
        (initJob none)).getLast?).map (fun j => (j.status, j.pct))
      = some (JStatus.done, -((1 : ℚ) / 10)) := by
  have hi1 : intChars (2000000 : Int) = ("2000000").data := by
    rw [intChars]
    norm_num
    rw [natToChars, natToChars, natToChars, natToChars, natToChars, natToChars,
      natToChars]
    norm_num
    decide
  have hi2 : intChars (-1000000 : Int) = ("-1000000").data := by
    rw [intChars, if_pos (by norm_num : (-1000000 : Int) < 0)]
    rw [show ((-1000000 : Int).natAbs) = 1000000 from by norm_num]
    rw [natToChars, natToChars, natToChars, natToChars, natToChars, natToChars,
      natToChars]
    norm_num
    decide
  have e1 : pctAfterLine 10 (("out_time_ms=2000000").data)
      = Except.ok (some ((1 : ℚ) / 5)) := by
    have h := pctAfterLine_out_val 10 2000000 (by norm_num)
    rw [hi1] at h
    rw [show (min 1 ((((2000000 : Int) : ℚ) / 1000000) / 10)) = (1 : ℚ) / 5 from by
      norm_num [min_def]] at h
    exact h
  have e2 : pctAfterLine 10 (("out_time_ms=-1000000").data)
      = Except.ok (some (-((1 : ℚ) / 10))) := by
    have h := pctAfterLine_out_val 10 (-1000000) (by norm_num)
    rw [hi2] at h
    rw [show (min 1 ((((-1000000 : Int) : ℚ) / 1000000) / 10)) = -((1 : ℚ) / 10) from by
      norm_num [min_def]] at h
    exact h
  refine ⟨?_, ?_, ?_⟩ <;>
    · simp only [c2World, run_job, runJobLaunch, procLines, e1, e2]
      rfl

/-- C2 witness: the amended monotonicity chain on a concrete good run (one
`progress=end` write, exit 0). -/
theorem c2_progress_monotone_checks :
    List.Chain' pctStep (run_job c6GoodWorld ("/outputs").data ("/up/vid.mp4").data
      none (initJob none)) := by
  have hgw : goodWorld c6GoodWorld := by
    intro dur segTime lines ret errTxt hp hl
    simp only [c6GoodWorld, Except.ok.injEq, Prod.mk.injEq] at hp hl
    obtain ⟨hd, hs⟩ := hp
    obtain ⟨hlines, hret, _herr⟩ := hl
    subst hd
    subst hlines
    subst hret
    have hupd : pctUpdates 10 [(("progress=end").data)] = [1] := by
      simp only [pctUpdates, List.filterMap_cons, List.filterMap_nil]
      rw [pctAfterLine_progress_end]
    refine ⟨?_, ?_, ?_⟩
    · intro p hp2
      rw [hupd] at hp2
      have : p = 1 := by simpa using hp2
      rw [this]
      norm_num
    · rw [hupd]
      simp
    · intro _
      rw [hupd]
      rfl
  exact (c2_progress_monotone c6GoodWorld (("/outputs").data) (("/up/vid.mp4").data)
    none (initJob none) rfl rfl hgw).2.1

/-! ## Claim C10: default output pattern derivation -/

lemma dropWhile_eq_nil_of_all (p : Char → Bool) :
    ∀ (l : List Char), (∀ c ∈ l, p c = true) → l.dropWhile p = [] := by
  intro l
  induction l with
  | nil => intro _; rfl
  | cons a t ih =>
    intro h
    rw [List.dropWhile_cons, h a (List.mem_cons_self a t)]
    simp only [if_true]
    exact ih (fun c hc => h c (List.mem_cons_of_mem a hc))

lemma pyBasename_append (d s : List Char) (hs : ('/') ∉ s) :
    pyBasename (d ++ ('/') :: s) = s := by
  unfold pyBasename
  have hrev : (d ++ ('/') :: s).reverse = s.reverse ++ ('/') :: d.reverse := by
    simp [List.reverse_append]
  rw [hrev]
  have hx : ∀ c ∈ s.reverse, (decide (c ≠ ('/'))) = true := by
    intro c hc
    simp only [decide_eq_true_eq]
    intro hceq
    exact hs (hceq ▸ List.mem_reverse.mp hc)
  rw [(takeWhile_append_stop _ s.reverse ('/') d.reverse hx (by decide)).1]
  exact List.reverse_reverse s

lemma splitAtLastDot_append (s t : List Char) (ht : ('.') ∉ t) :
    splitAtLastDot (s ++ ('.') :: t) = some (s, t) := by
  unfold splitAtLastDot
  have hrev : (s ++ ('.') :: t).reverse = t.reverse ++ ('.') :: s.reverse := by
    simp [List.reverse_append]
  have hx : ∀ c ∈ t.reverse, (decide (c ≠ ('.'))) = true := by
    intro c hc
    simp only [decide_eq_true_eq]
    intro hceq
    exact ht (hceq ▸ List.mem_reverse.mp hc)
  have hsp := takeWhile_append_stop (fun c => decide (c ≠ ('.'))) t.reverse ('.')
    s.reverse hx (by decide)
  simp only [hrev, hsp.1, hsp.2, List.reverse_reverse]

lemma splitAtLastDot_nodot (b : List Char) (hb : ('.') ∉ b) :
    splitAtLastDot b = none := by
  have hall : ∀ c ∈ b.reverse, (decide (c ≠ ('.'))) = true := by
    intro c hc
    simp only [decide_eq_true_eq]
    intro hceq
    exact hb (hceq ▸ List.mem_reverse.mp hc)
  simp only [splitAtLastDot, dropWhile_eq_nil_of_all _ b.reverse hall]

lemma pySplitextBase_nodot (b : List Char) (hb : ('.') ∉ b) :
    pySplitextBase b = (b, []) := by
  unfold pySplitextBase
  rw [splitAtLastDot_nodot b hb]

lemma pySplitextBase_ext (s t : List Char) (hs : s ≠ []) (hs2 : ('.') ∉ s)
    (ht : ('.') ∉ t) : pySplitextBase (s ++ ('.') :: t) = (s, ('.') :: t) := by
  simp only [pySplitextBase, splitAtLastDot_append s t ht]
  have hany : s.any (fun c => decide (c ≠ ('.'))) = true := by
    cases s with
    | nil => exact absurd rfl hs
    | cons a s2 =>
      simp only [List.any_cons, Bool.or_eq_true, decide_eq_true_eq]
      left
      intro hceq
      exact hs2 (hceq ▸ List.mem_cons_self a s2)
  rw [if_pos hany]

lemma take_dir (d rest : List Char) :
    (d ++ ('/') :: rest).take ((d ++ ('/') :: rest).length - rest.length)
      = d ++ [('/')] := by
  have hlen : (d ++ ('/') :: rest).length - rest.length = d.length + 1 := by
    simp only [List.length_append, List.length_cons]
    omega
  rw [hlen, List.take_append_eq_append_take]
  rw [List.take_of_length_le (by omega : d.length ≤ d.length + 1)]
  rw [show d.length + 1 - d.length = 1 from by omega]
  rfl

/-- C10: when no explicit pattern is submitted, the worker derives
`os.path.join(OUTPUT_DIR, "<input basename without extension>_part%03d<ext>")`
with `<ext>` the input extension or `.mp4` when the input has none, and the
CLI derives `"<input path without extension>_part%03d<ext or .mp4>"`, for
any input path of the form `d / s e` with a slash-free, dot-free, nonempty
stem `s` and a single-dot extension `e` (possibly absent). -/
theorem c10_default_pattern (outDir d s e : List Char)
    (hs : s ≠ []) (hs1 : ('/') ∉ s) (hs2 : ('.') ∉ s)
    (he : e = [] ∨ ∃ t, e = ('.') :: t ∧ ('.') ∉ t ∧ ('/') ∉ t) :
    outPatternOf outDir (d ++ ('/') :: (s ++ e)) none
      = osJoin outDir (s ++ ("_part%03d").data
          ++ (if e = [] then (".mp4").data else e))
    ∧ cliOutPattern (d ++ ('/') :: (s ++ e)) none
      = d ++ ('/') :: (s ++ ("_part%03d").data
          ++ (if e = [] then (".mp4").data else e)) := by
  rcases he with rfl | ⟨t, rfl, ht1, ht2⟩
  · have hse : ('/') ∉ s ++ ([] : List Char) := by simpa using hs1
    have hb : pyBasename (d ++ ('/') :: (s ++ [])) = s ++ [] :=
      pyBasename_append d (s ++ []) hse
    have hsp : pySplitextBase (s ++ []) = (s, []) := by
      rw [List.append_nil]
      exact pySplitextBase_nodot s hs2
    constructor
    · simp only [outPatternOf, extOf, pySplitext, hb, hsp]
    · simp only [cliOutPattern, pySplitext, hb, hsp]
      rw [take_dir d (s ++ [])]
      simp
  · have hse : ('/') ∉ s ++ ('.') :: t := by
      intro hmem
      rcases List.mem_append.mp hmem with h | h
      · exact hs1 h
      · rcases List.mem_cons.mp h with hc | hc
        · exact absurd hc (by decide)
        · exact ht2 hc
    have hb : pyBasename (d ++ ('/') :: (s ++ ('.') :: t)) = s ++ ('.') :: t :=
      pyBasename_append d _ hse
    have hsp : pySplitextBase (s ++ ('.') :: t) = (s, ('.') :: t) :=
      pySplitextBase_ext s t hs hs2 ht1
    constructor
    · simp only [outPatternOf, extOf, pySplitext, hb, hsp]
    · simp only [cliOutPattern, pySplitext, hb, hsp]
      rw [take_dir d (s ++ ('.') :: t)]
      simp

/-- C10 witness: input `/data/video.mkv` with output directory `/outputs`
gives the web pattern `/outputs/video_part%03d.mkv` and the CLI pattern
`/data/video_part%03d.mkv`; the same machinery applied to an
extension-less input appends `.mp4`. -/
theorem c10_default_pattern_checks :
    outPatternOf ("/outputs").data ("/data/video.mkv").data none
      = ("/outputs/video_part%03d.mkv").data
    ∧ cliOutPattern ("/data/video.mkv").data none
      = ("/data/video_part%03d.mkv").data := by
  have h := c10_default_pattern ("/outputs").data ("/data").data ("video").data
    ((".mkv").data) (by decide) (by decide) (by decide)
    (Or.inr ⟨("mkv").data, rfl, by decide, by decide⟩)
  constructor
  · have h1 := h.1
    rw [show ("/data").data ++ ('/') :: ((("video").data) ++ ((".mkv").data))
      = ("/data/video.mkv").data from by decide] at h1
    rw [h1]
    decide
  · have h2 := h.2
    rw [show ("/data").data ++ ('/') :: ((("video").data) ++ ((".mkv").data))
      = ("/data/video.mkv").data from by decide] at h2
    rw [h2]
    decide
